import Mathlib

/-!
Verification of the phase computation and unwrapping engine of
`core/phase_processor.py` (class `PhaseProcessor`).

Height maps and intensity frames are modelled as lists of rows of exact
rationals (`List (List ℚ)`); numpy cell reads become `gval` with the usual
out-of-range default of `0`, which is never hit inside the stored extent.
The vectorised numpy passes (`np.diff` / corrections / `np.cumsum` /
slice-add) are rendered pointwise: the pixel at `(r, c)` receives its
original value plus the sum of the corrections of all differences strictly
before it along the scanned axis, which is exactly what `h[:, 1:] +=
np.cumsum(corrections, axis=1)` computes.
-/

set_option maxHeartbeats 1000000

namespace MII4

/-- Value of a 2D grid (list of rows) at row `r`, column `c`, with the
convention that reads outside the stored extent give `0`.  In-range reads
agree with numpy indexing. -/
def gval (g : List (List ℚ)) (r c : ℕ) : ℚ := (g.getD r []).getD c 0

/-- Boolean grid lookup with default `false`. -/
def bval (g : List (List Bool)) (i j : ℕ) : Bool := (g.getD i []).getD j false

/-- Grid built pointwise: `h` rows, row `r` of width `w r`, entries `f r c`. -/
def gridMk {α : Type} (h : ℕ) (w : ℕ → ℕ) (f : ℕ → ℕ → α) : List (List α) :=
  (List.range h).map (fun r => (List.range (w r)).map (f r))

/-- Correction contributed by one adjacent difference `d` in
`threshold_unwrap` / `special_unwrap`:
`corrections[diff > limit] = -correction_step` followed by
`corrections[diff < -limit] = correction_step` (the later numpy assignment
overwrites the earlier one, so the `d < -limit` test wins). -/
def jumpStep (limit step d : ℚ) : ℚ :=
  if d < -limit then step else if limit < d then -step else 0

/-- Horizontal pass of `threshold_unwrap`: `diff = np.diff(h, axis=1)`,
corrections via `jumpStep`, `total = np.cumsum(corrections, axis=1)`,
`h[:, 1:] += total`.  Pointwise, pixel `(r, c)` gains the sum of the
corrections of the `c` differences strictly to its left. -/
def hPass (limit step : ℚ) (g : List (List ℚ)) : List (List ℚ) :=
  gridMk g.length (fun r => (g.getD r []).length)
    (fun r c => gval g r c +
      ∑ k in Finset.range c, jumpStep limit step (gval g r (k + 1) - gval g r k))

/-- Vertical pass of `threshold_unwrap`: the same with `axis=0`. -/
def vPass (limit step : ℚ) (g : List (List ℚ)) : List (List ℚ) :=
  gridMk g.length (fun r => (g.getD r []).length)
    (fun r c => gval g r c +
      ∑ k in Finset.range r, jumpStep limit step (gval g (k + 1) c - gval g k c))

/-- `PhaseProcessor.threshold_unwrap`: `max 1 iterations` repetitions of the
horizontal pass (when `horizontal`) followed by the vertical pass (when
`vertical`), with `limit = 0.5 * lam * threshold` and
`correction_step = 0.5 * lam`.  (`lam` is `self.lambda_angstrom`,
7500.0 by default; the `height_map is None` guard is out of scope of the
value-level model.) -/
def threshold_unwrap (lam threshold : ℚ) (iterations : ℕ)
    (horizontal vertical : Bool) (m : List (List ℚ)) : List (List ℚ) :=
  let limit := 1 / 2 * lam * threshold
  let step := 1 / 2 * lam
  (fun g =>
    let g1 := if horizontal then hPass limit step g else g
    if vertical then vPass limit step g1 else g1)^[max 1 iterations] m

/-- `PhaseProcessor.phase_jump`: true iff some adjacent difference along x
(`np.diff(tile, axis=1)`) or along y (`np.diff(tile, axis=0)`) exceeds
`0.5 * lam * threshold` in absolute value. -/
def phase_jump (lam threshold : ℚ) (tile : List (List ℚ)) : Bool :=
  let limit := 1 / 2 * lam * threshold
  ((List.range tile.length).any fun r =>
    (List.range ((tile.getD r []).length - 1)).any fun k =>
      decide (limit < |gval tile r (k + 1) - gval tile r k|)) ||
  ((List.range (tile.length - 1)).any fun k =>
    (List.range ((tile.headD []).length)).any fun c =>
      decide (limit < |gval tile (k + 1) c - gval tile k c|))

/-- Pixel-level mask used by `special_unwrap`.  The tile mask `tm` (indexed
`[x_block][y_block]`) is expanded by `np.repeat` along both axes to shape
`(nx * del, ny * del)`, copied into an all-`False` `(cols, rows)` array
clipped at `w_end = min cols (nx * del)` and `h_end = min rows (ny * del)`,
then transposed to `(rows, cols)`.  Hence pixel `(r, c)` reads
`tm[c / del][r / del]` when it lies inside the expanded extent and `False`
(treated as unmasked) outside it. -/
def maskAt (tm : List (List Bool)) (del rows cols r c : ℕ) : Bool :=
  let nx := tm.length
  let ny := (tm.headD []).length
  if c < min cols (nx * del) ∧ r < min rows (ny * del) then
    bval tm (c / del) (r / del)
  else false

/-- Masked horizontal pass of `special_unwrap`: as `hPass`, but the
correction for the difference targeting pixel `(r, k + 1)` is applied only
where `valid_mask = ~mask_full[:, 1:]` holds at that pixel. -/
def hPassM (limit step : ℚ) (valid : ℕ → ℕ → Bool) (g : List (List ℚ)) :
    List (List ℚ) :=
  gridMk g.length (fun r => (g.getD r []).length)
    (fun r c => gval g r c +
      ∑ k in Finset.range c,
        (if valid r (k + 1) then
          jumpStep limit step (gval g r (k + 1) - gval g r k) else 0))

/-- Masked vertical pass of `special_unwrap` (`valid_mask = ~mask_full[1:, :]`). -/
def vPassM (limit step : ℚ) (valid : ℕ → ℕ → Bool) (g : List (List ℚ)) :
    List (List ℚ) :=
  gridMk g.length (fun r => (g.getD r []).length)
    (fun r c => gval g r c +
      ∑ k in Finset.range r,
        (if valid (k + 1) c then
          jumpStep limit step (gval g (k + 1) c - gval g k c) else 0))

/-- `PhaseProcessor.special_unwrap`: the pixel mask is built once from the
shape of `p`, then three passes of horizontal-then-vertical masked
correction are applied. -/
def special_unwrap (lam threshold : ℚ) (tm : List (List Bool)) (del : ℕ)
    (p : List (List ℚ)) : List (List ℚ) :=
  let limit := 1 / 2 * lam * threshold
  let step := 1 / 2 * lam
  let rows := p.length
  let cols := (p.headD []).length
  let valid := fun r c => !(maskAt tm del rows cols r c)
  (fun g => vPassM limit step valid (hPassM limit step valid g))^[3] p

/-! ### Sequential raster semantics

`special_unwrap` is specified (and was originally written) as a sequential
raster scan carrying a running `offset` and a last-seen value.  `seqRow`
is the scan the vectorised code actually computes: the jump test always
compares a sample with its immediate predecessor, and only the `offset`
update is gated by the mask.  `seqClaimRow` follows the specification's
words instead: both the last-seen value and the offset are updated only at
unmasked pixels. -/

/-- Sequential scan along one line, continuing after the first sample:
`last` is always the immediate predecessor's (pre-pass) value; the offset
update is gated by `valid` at the current index.  Every sample is written
as `value + offset`. -/
def seqTail (limit step : ℚ) (valid : ℕ → Bool) :
    ℕ → ℚ → ℚ → List ℚ → List ℚ
  | _, _, _, [] => []
  | idx, last, offset, v :: rest =>
    let o := offset + (if valid idx then jumpStep limit step (v - last) else 0)
    (v + o) :: seqTail limit step valid (idx + 1) v o rest

/-- Sequential scan of a full line: the first sample is written unchanged
(offset starts at `0`) and seeds the last-seen value. -/
def seqRow (limit step : ℚ) (valid : ℕ → Bool) : List ℚ → List ℚ
  | [] => []
  | v :: rest => v :: seqTail limit step valid 1 v 0 rest

/-- Scan continuation following the claim's words: at a masked pixel
neither the offset nor the last-seen value is updated, but the pixel is
still written as `value + offset`. -/
def seqClaimTail (limit step : ℚ) (valid : ℕ → Bool) :
    ℕ → ℚ → ℚ → List ℚ → List ℚ
  | _, _, _, [] => []
  | idx, last, offset, v :: rest =>
    if valid idx then
      let o := offset + jumpStep limit step (v - last)
      (v + o) :: seqClaimTail limit step valid (idx + 1) v o rest
    else
      (v + offset) :: seqClaimTail limit step valid (idx + 1) last offset rest

/-- Full-line scan following the claim's words. -/
def seqClaimRow (limit step : ℚ) (valid : ℕ → Bool) : List ℚ → List ℚ
  | [] => []
  | v :: rest => v :: seqClaimTail limit step valid 1 v 0 rest

/-- Column `c` of a grid, as a list. -/
def colOf (g : List (List ℚ)) (c : ℕ) : List ℚ :=
  (List.range g.length).map (fun r => gval g r c)

/-- Sequential horizontal pass: every row scanned left to right. -/
def hSeqPass (limit step : ℚ) (valid : ℕ → ℕ → Bool) (g : List (List ℚ)) :
    List (List ℚ) :=
  (List.range g.length).map (fun r => seqRow limit step (valid r) (g.getD r []))

/-- Sequential vertical pass: every column scanned top to bottom, the
results reassembled into rows. -/
def vSeqPass (limit step : ℚ) (valid : ℕ → ℕ → Bool) (g : List (List ℚ)) :
    List (List ℚ) :=
  (List.range g.length).map (fun r => (List.range ((g.getD r []).length)).map
    (fun c => (seqRow limit step (fun k => valid k c) (colOf g c)).getD r 0))

/-- Sequential rendering of what `special_unwrap` computes: three
repetitions of a horizontal-then-vertical raster pass where only the
offset update is masked. -/
def specialSeqCode (lam threshold : ℚ) (tm : List (List Bool)) (del : ℕ)
    (p : List (List ℚ)) : List (List ℚ) :=
  let limit := 1 / 2 * lam * threshold
  let step := 1 / 2 * lam
  let rows := p.length
  let cols := (p.headD []).length
  let valid := fun r c => !(maskAt tm del rows cols r c)
  (fun g => vSeqPass limit step valid (hSeqPass limit step valid g))^[3] p

/-- Horizontal pass following the claim's words (last-seen value gated). -/
def hSeqClaimPass (limit step : ℚ) (valid : ℕ → ℕ → Bool)
    (g : List (List ℚ)) : List (List ℚ) :=
  (List.range g.length).map
    (fun r => seqClaimRow limit step (valid r) (g.getD r []))

/-- Vertical pass following the claim's words. -/
def vSeqClaimPass (limit step : ℚ) (valid : ℕ → ℕ → Bool)
    (g : List (List ℚ)) : List (List ℚ) :=
  (List.range g.length).map (fun r => (List.range ((g.getD r []).length)).map
    (fun c => (seqClaimRow limit step (fun k => valid k c) (colOf g c)).getD r 0))

/-- The masked global corrector exactly as claim C1 words it: three
repetitions of a horizontal-then-vertical raster pass in which the running
offset and the last-seen value are updated only at pixels of unmasked
tiles, every pixel still being rewritten as `value + offset`.  This
definition follows the specification's words, for comparison with
`special_unwrap`, which is translated from the code. -/
def specialSeqClaim (lam threshold : ℚ) (tm : List (List Bool)) (del : ℕ)
    (p : List (List ℚ)) : List (List ℚ) :=
  let limit := 1 / 2 * lam * threshold
  let step := 1 / 2 * lam
  let rows := p.length
  let cols := (p.headD []).length
  let valid := fun r c => !(maskAt tm del rows cols r c)
  (fun g => vSeqClaimPass limit step valid (hSeqClaimPass limit step valid g))^[3] p

/-! ### Tile partitioner (`PhaseProcessor.tile_unwrap`) -/

/-- The sub-map `img[Y:Y_end, X:X_end]` for tile `(X_idx, Y_idx)`, where
`Y = Y_idx * del`, `Y_end = min (Y + del) h` and similarly for `X`; list
`take`/`drop` clip at the image extent exactly as numpy slicing does. -/
def tileOf (img : List (List ℚ)) (del Xi Yi : ℕ) : List (List ℚ) :=
  ((img.drop (Yi * del)).take del).map (fun row => (row.drop (Xi * del)).take del)

/-- The tile mask built by `tile_unwrap`: shape
`(nx, ny) = (max 1 (w / del), max 1 (h / del))`, entry `[X_idx][Y_idx]`
true iff the tile still has a jump after a one-iteration local unwrap. -/
def tilesMask (lam threshold : ℚ) (horizontal vertical : Bool)
    (img : List (List ℚ)) (del : ℕ) : List (List Bool) :=
  let h := img.length
  let w := (img.headD []).length
  let nx := max 1 (w / del)
  let ny := max 1 (h / del)
  (List.range nx).map (fun Xi => (List.range ny).map (fun Yi =>
    phase_jump lam threshold
      (threshold_unwrap lam threshold 1 horizontal vertical (tileOf img del Xi Yi))))

/-- `np.zeros_like(img)`. -/
def zerosLike (img : List (List ℚ)) : List (List ℚ) :=
  img.map (fun row => row.map (fun _ => (0 : ℚ)))

/-- Assignment `row[X : X + seg.length] = seg`. -/
def setSeg (row : List ℚ) (X : ℕ) (seg : List ℚ) : List ℚ :=
  row.take X ++ seg ++ row.drop (X + seg.length)

/-- Assignment `b[Y : Y + t.length, X : X + width t] = t`. -/
def writeBlock (b : List (List ℚ)) (Y X : ℕ) (t : List (List ℚ)) :
    List (List ℚ) :=
  b.take Y ++
    List.zipWith (fun row trow => setSeg row X trow) ((b.drop Y).take t.length) t ++
    b.drop (Y + t.length)

/-- The loop order of `tile_unwrap`: `Y_idx` outer, `X_idx` inner. -/
def tilePairs (ny nx : ℕ) : List (ℕ × ℕ) :=
  (List.range ny).flatMap (fun Yi => (List.range nx).map (fun Xi => (Yi, Xi)))

/-- `PhaseProcessor.tile_unwrap`: the output buffer starts as
`np.zeros_like(img)`; each tile is locally unwrapped (one iteration) and
written back into its region; the per-tile jump flags form `tiles_mask`;
optionally `special_unwrap` post-processes the assembled map. -/
def tile_unwrap (lam threshold : ℚ) (del : ℕ)
    (horizontal vertical use_special : Bool) (img : List (List ℚ)) :
    List (List ℚ) :=
  let h := img.length
  let w := (img.headD []).length
  let nx := max 1 (w / del)
  let ny := max 1 (h / del)
  let b := (tilePairs ny nx).foldl
    (fun b pr => writeBlock b (pr.1 * del) (pr.2 * del)
      (threshold_unwrap lam threshold 1 horizontal vertical (tileOf img del pr.2 pr.1)))
    (zerosLike img)
  if use_special then
    special_unwrap lam threshold (tilesMask lam threshold horizontal vertical img del) del b
  else b

/-! ### Wrapped phase calculator (`PhaseProcessor.compute_phase`)

The 3/4/5-step formulas multiply by `np.sqrt(3)`; values of the form
`a + b * √3` are represented exactly as pairs `(a, b) : ℚ × ℚ`, and only
the final two-argument arctangent moves to `ℝ`. -/

/-- Numerators and denominators of `compute_phase`, per pixel, for the
supported step counts; any other step count raises
`ValueError("Поддерживаются только 3, 4, или 5 шагов.")`, modelled as an
error result.  `(a, b)` encodes `a + b * √3`. -/
def computeNumDen (images : List (List (List ℚ))) (steps : ℕ) :
    Except String (List (List ((ℚ × ℚ) × (ℚ × ℚ)))) :=
  let I := fun (i : ℕ) => images.getD i []
  let rows := (I 0).length
  let cols := ((I 0).headD []).length
  let v := fun (i : ℕ) (r c : ℕ) => gval (I i) r c
  if steps = 3 then
    .ok (gridMk rows (fun _ => cols) (fun r c =>
      ((2 * v 0 r c - 3 * v 1 r c + v 2 r c, 0),
       (0, v 1 r c - v 2 r c))))
  else if steps = 4 then
    .ok (gridMk rows (fun _ => cols) (fun r c =>
      ((5 * (v 0 r c - v 1 r c - v 2 r c + v 3 r c), 0),
       (0, 2 * v 0 r c + v 1 r c - v 2 r c - 2 * v 3 r c))))
  else if steps = 5 then
    .ok (gridMk rows (fun _ => cols) (fun r c =>
      ((0, 2 * v 0 r c - 3 * v 1 r c - 4 * v 2 r c + 5 * v 4 r c),
       (8 * v 0 r c + 3 * v 1 r c - 4 * v 2 r c - 6 * v 3 r c - v 4 r c, 0))))
  else .error "Поддерживаются только 3, 4, или 5 шагов."

/-- Real value of an `a + b * √3` pair. -/
noncomputable def q3toReal (q : ℚ × ℚ) : ℝ := (q.1 : ℝ) + (q.2 : ℝ) * Real.sqrt 3

/-- Two-argument arctangent with numpy's conventions; in particular
`atan2 0 0 = 0`. -/
noncomputable def atan2 (y x : ℝ) : ℝ :=
  if 0 < x then Real.arctan (y / x)
  else if x < 0 ∧ 0 ≤ y then Real.arctan (y / x) + Real.pi
  else if x < 0 ∧ y < 0 then Real.arctan (y / x) - Real.pi
  else if x = 0 ∧ 0 < y then Real.pi / 2
  else if x = 0 ∧ y < 0 then -(Real.pi / 2)
  else 0

/-- `PhaseProcessor.compute_phase`: `np.arctan2(numerator, denominator)`
applied element-wise to the step-count-specific linear combinations. -/
noncomputable def compute_phase (images : List (List (List ℚ))) (steps : ℕ) :
    Except String (List (List ℝ)) :=
  (computeNumDen images steps).map
    (fun g => g.map (fun row => row.map
      (fun nd => atan2 (q3toReal nd.1) (q3toReal nd.2))))

/-! ### Trend removal -/

/-- Degree-1 least-squares fit of `ys` against `x = np.arange(ys.length)`,
as `np.polyfit(x, ys, 1)` computes it: for a nonsingular system the unique
least-squares solution is the normal-equations solution returned here as
`(slope, intercept)`.  A singular system (the degenerate-fit case) has no
well-defined coefficients and is modelled as an error outcome. -/
def polyfit1 (ys : List ℚ) : Except Unit (ℚ × ℚ) :=
  let n := ys.length
  let nQ : ℚ := n
  let sx := ∑ i in Finset.range n, (i : ℚ)
  let sxx := ∑ i in Finset.range n, ((i : ℚ)) ^ 2
  let sy := ys.sum
  let sxy := ∑ i in Finset.range n, (i : ℚ) * ys.getD i 0
  let d := nQ * sxx - sx * sx
  if d = 0 then .error () else
    let slope := (nQ * sxy - sx * sy) / d
    .ok (slope, (sy - slope * sx) / nQ)

/-- Value of the fitted line at `x`. -/
def polyval1 (co : ℚ × ℚ) (x : ℚ) : ℚ := co.1 * x + co.2

/-- `PhaseProcessor.remove_linear_trend`: horizontal trend fitted on the
first row and subtracted from every row, then vertical trend fitted on the
first column of the partially corrected result and subtracted from every
column.  The function has no handler around the fits, so a failed fit
propagates to the caller (hence the `Except` result). -/
def remove_linear_trend (k : List (List ℚ)) : Except Unit (List (List ℚ)) :=
  if k.length = 0 ∨ (k.headD []).length = 0 then Except.ok k else
  let rows := k.length
  let cols := (k.headD []).length
  (polyfit1 (k.headD [])).bind (fun ch =>
    let r1 := gridMk rows (fun _ => cols)
      (fun y x => gval k y x - polyval1 ch (x : ℚ))
    (polyfit1 ((List.range rows).map (fun y => gval r1 y 0))).bind (fun cv =>
      Except.ok (gridMk rows (fun _ => cols)
        (fun y x => gval r1 y x - polyval1 cv (y : ℚ)))))

/-- Degree-2 least-squares fit of `ys` against `x = np.arange(ys.length)`,
as `np.polyfit(x, ys, 2)` computes it, returned as `(a, b, c)` for
`a * x ^ 2 + b * x + c`.  `np.polyfit` raises only when the profile has at
most one sample: an empty `x` is a TypeError, and with a single sample the
`x ^ 2` column of the Vandermonde is zero-norm, so the column scaling
produces NaNs and `lstsq` raises LinAlgError — both modelled as the error
outcome.  With exactly two samples the system is rank-deficient but
`lstsq` still succeeds (a RankWarning is not an exception): it returns the
minimum-norm interpolating solution, which after unscaling is
`a = b = (y1 - y0) / 2`, `c = y0` (the `x ^ 2` and `x` columns have equal
norms for `x = [0, 1]`).  From three samples on the Vandermonde has full
column rank (three distinct x values), so the unique least-squares
solution is the normal-equations solution, computed here by Cramer's rule;
its determinant is nonzero for every `n ≥ 3`. -/
def polyfit2 (ys : List ℚ) : Except Unit (ℚ × ℚ × ℚ) :=
  match ys with
  | [] => Except.error ()
  | [_] => Except.error ()
  | [y0, y1] => Except.ok ((y1 - y0) / 2, (y1 - y0) / 2, y0)
  | y0 :: y1 :: y2 :: rest =>
    let l := y0 :: y1 :: y2 :: rest
    let n := l.length
    let s0 : ℚ := n
    let s1 := ∑ i in Finset.range n, (i : ℚ)
    let s2 := ∑ i in Finset.range n, (i : ℚ) ^ 2
    let s3 := ∑ i in Finset.range n, (i : ℚ) ^ 3
    let s4 := ∑ i in Finset.range n, (i : ℚ) ^ 4
    let t0 := l.sum
    let t1 := ∑ i in Finset.range n, (i : ℚ) * l.getD i 0
    let t2 := ∑ i in Finset.range n, (i : ℚ) ^ 2 * l.getD i 0
    let det := s0 * (s2 * s4 - s3 * s3) - s1 * (s1 * s4 - s2 * s3)
      + s2 * (s1 * s3 - s2 * s2)
    let c0 := (t0 * (s2 * s4 - s3 * s3) - s1 * (t1 * s4 - t2 * s3)
      + s2 * (t1 * s3 - t2 * s2)) / det
    let c1 := (s0 * (t1 * s4 - t2 * s3) - t0 * (s1 * s4 - s2 * s3)
      + s2 * (s1 * t2 - s2 * t1)) / det
    let c2 := (s0 * (s2 * t2 - s3 * t1) - s1 * (s1 * t2 - s2 * t1)
      + t0 * (s1 * s3 - s2 * s2)) / det
    Except.ok (c2, c1, c0)

/-- `PhaseProcessor._fit_polynomial_trend`: the degree-2 fit evaluated over
`np.arange(size)`, with the `try/except` recovery that substitutes
`np.zeros(size)` when the fit fails. -/
def fit_polynomial_trend (profile : List ℚ) (size : ℕ) : List ℚ :=
  match polyfit2 profile with
  | .ok co => (List.range size).map
      (fun x => co.1 * (x : ℚ) ^ 2 + co.2.1 * (x : ℚ) + co.2.2)
  | .error _ => List.replicate size 0

/-- `PhaseProcessor.remove_polynomial_trend`: both profiles are taken from
the original map, their degree-2 trends subtracted row- and column-wise.
Thanks to the recovery in `fit_polynomial_trend` this function is total. -/
def remove_polynomial_trend (k : List (List ℚ)) : List (List ℚ) :=
  if k.length = 0 ∨ (k.headD []).length = 0 then k else
  let height := k.length
  let width := (k.headD []).length
  let ht := fit_polynomial_trend (k.headD []) width
  let vt := fit_polynomial_trend ((List.range height).map (fun y => gval k y 0)) height
  gridMk height (fun _ => width)
    (fun y x => gval k y x - ht.getD x 0 - vt.getD y 0)

/-- The tilted-plane input `z = a * x + b * y + c` of claim C9, as a
`rows × cols` grid. -/
def planeMap (a b c : ℚ) (rows cols : ℕ) : List (List ℚ) :=
  gridMk rows (fun _ => cols) (fun y x => a * (x : ℚ) + b * (y : ℚ) + c)

/-! ### Shape and smoothness predicates -/

/-- A grid is rectangular: every row has the width of the first row.
Numpy 2D arrays always satisfy this. -/
def rect (g : List (List ℚ)) : Prop :=
  ∀ r < g.length, (g.getD r []).length = (g.headD []).length

/-- No adjacent horizontal difference exceeds `limit` in absolute value. -/
def smoothH (limit : ℚ) (g : List (List ℚ)) : Prop :=
  ∀ r < g.length, ∀ k < (g.getD r []).length - 1,
    |gval g r (k + 1) - gval g r k| ≤ limit

/-- No adjacent vertical difference exceeds `limit` in absolute value. -/
def smoothV (limit : ℚ) (g : List (List ℚ)) : Prop :=
  ∀ k < g.length - 1, ∀ c < (g.headD []).length,
    |gval g (k + 1) c - gval g k c| ≤ limit

/-- A boolean grid is rectangular and all-true (used for the all-bad-tile
mask of claim C5). -/
def allTrueRect (tm : List (List Bool)) : Prop :=
  (∀ i < tm.length, (tm.getD i []).length = (tm.headD []).length) ∧
  (∀ i < tm.length, ∀ j < (tm.getD i []).length, bval tm i j = true)

/-! ### Basic list and grid lemmas -/

theorem getD_range_map {α : Type} (f : ℕ → α) (n i : ℕ) (d : α) (h : i < n) :
    ((List.range n).map f).getD i d = f i := by
  rw [List.getD_eq_getElem?_getD, List.getElem?_map, List.getElem?_range h]
  rfl

theorem gridMk_length {α : Type} (h : ℕ) (w : ℕ → ℕ) (f : ℕ → ℕ → α) :
    (gridMk h w f).length = h := by
  simp [gridMk]

theorem gridMk_row {α : Type} (h : ℕ) (w : ℕ → ℕ) (f : ℕ → ℕ → α) (r : ℕ)
    (hr : r < h) : (gridMk h w f).getD r [] = (List.range (w r)).map (f r) := by
  unfold gridMk; exact getD_range_map _ _ _ _ hr

theorem gridMk_row_length {α : Type} (h : ℕ) (w : ℕ → ℕ) (f : ℕ → ℕ → α)
    (r : ℕ) (hr : r < h) : ((gridMk h w f).getD r []).length = w r := by
  rw [gridMk_row h w f r hr]; simp

theorem gval_gridMk (h : ℕ) (w : ℕ → ℕ) (f : ℕ → ℕ → ℚ) (r c : ℕ)
    (hr : r < h) (hc : c < w r) : gval (gridMk h w f) r c = f r c := by
  rw [gval, gridMk_row h w f r hr, getD_range_map _ _ _ _ hc]

theorem grid_eta (g : List (List ℚ)) :
    gridMk g.length (fun r => (g.getD r []).length) (fun r c => gval g r c) = g := by
  unfold gridMk gval
  apply List.ext_getElem (by simp)
  intro r h1 h2
  rw [List.getElem_map, List.getElem_range]
  beta_reduce
  have hr : g.getD r [] = g[r] := by
    rw [List.getD_eq_getElem?_getD, List.getElem?_eq_getElem h2]; rfl
  rw [hr]
  apply List.ext_getElem (by simp)
  intro c hc1 hc2
  rw [List.getElem_map, List.getElem_range, List.getD_eq_getElem?_getD,
    List.getElem?_eq_getElem hc2]
  rfl

theorem jumpStep_eq_zero {limit step d : ℚ} (h : |d| ≤ limit) :
    jumpStep limit step d = 0 := by
  rcases abs_le.mp h with ⟨h1, h2⟩
  rw [jumpStep, if_neg (by linarith), if_neg (by linarith)]

theorem gridMk_congr {α : Type} (h : ℕ) (w : ℕ → ℕ) (f f' : ℕ → ℕ → α)
    (hf : ∀ r < h, ∀ c < w r, f r c = f' r c) : gridMk h w f = gridMk h w f' := by
  unfold gridMk
  apply List.map_congr_left
  intro r hr
  apply List.map_congr_left
  intro c hc
  exact hf r (List.mem_range.mp hr) c (List.mem_range.mp hc)

theorem iterate_three {α : Type} (f : α → α) (x : α) : f^[3] x = f (f (f x)) := rfl

/-! ### Identity of the passes on smooth or fully masked input -/

theorem hPass_smooth_id (limit step : ℚ) (g : List (List ℚ))
    (hs : smoothH limit g) : hPass limit step g = g := by
  unfold hPass
  rw [gridMk_congr _ _ _ (fun r c => gval g r c) (fun r hr c hc => by
    rw [Finset.sum_eq_zero, add_zero]
    intro k hk
    exact jumpStep_eq_zero (hs r hr k (by
      have := Finset.mem_range.mp hk; omega)))]
  exact grid_eta g

theorem vPass_smooth_id (limit step : ℚ) (g : List (List ℚ))
    (hrect : rect g) (hs : smoothV limit g) : vPass limit step g = g := by
  unfold vPass
  rw [gridMk_congr _ _ _ (fun r c => gval g r c) (fun r hr c hc => by
    rw [Finset.sum_eq_zero, add_zero]
    intro k hk
    have hkr := Finset.mem_range.mp hk
    exact jumpStep_eq_zero (hs k (by omega) c (by rw [← hrect r hr]; exact hc)))]
  exact grid_eta g

theorem hPassM_all_invalid (limit step : ℚ) (valid : ℕ → ℕ → Bool)
    (g : List (List ℚ)) (hrect : rect g)
    (hval : ∀ r < g.length, ∀ c < (g.headD []).length, valid r c = false) :
    hPassM limit step valid g = g := by
  unfold hPassM
  rw [gridMk_congr _ _ _ (fun r c => gval g r c) (fun r hr c hc => by
    rw [Finset.sum_eq_zero, add_zero]
    intro k hk
    have hkr := Finset.mem_range.mp hk
    have hcw : c < (g.headD []).length := by rw [← hrect r hr]; exact hc
    rw [hval r hr (k + 1) (by omega)]
    rfl)]
  exact grid_eta g

theorem vPassM_all_invalid (limit step : ℚ) (valid : ℕ → ℕ → Bool)
    (g : List (List ℚ)) (hrect : rect g)
    (hval : ∀ r < g.length, ∀ c < (g.headD []).length, valid r c = false) :
    vPassM limit step valid g = g := by
  unfold vPassM
  rw [gridMk_congr _ _ _ (fun r c => gval g r c) (fun r hr c hc => by
    rw [Finset.sum_eq_zero, add_zero]
    intro k hk
    have hkr := Finset.mem_range.mp hk
    have hcw : c < (g.headD []).length := by rw [← hrect r hr]; exact hc
    rw [hval (k + 1) (by omega) c hcw]
    rfl)]
  exact grid_eta g

theorem getD_replicate {α : Type} (n i : ℕ) (a d : α) (h : i < n) :
    (List.replicate n a).getD i d = a := by
  rw [List.getD_eq_getElem?_getD, List.getElem?_replicate, if_pos h]
  rfl

theorem gridMk_map {α β : Type} (h : ℕ) (w : ℕ → ℕ) (f : ℕ → ℕ → α)
    (t : α → β) :
    (gridMk h w f).map (fun row => row.map t) = gridMk h w (fun r c => t (f r c)) := by
  unfold gridMk
  simp [List.map_map, Function.comp]

/-! ### Index lemmas for the block writes of the tile partitioner -/

theorem getD_map_in {α β : Type} (f : α → β) (l : List α) (j : ℕ) (d : β)
    (d' : α) (hj : j < l.length) : (l.map f).getD j d = f (l.getD j d') := by
  rw [List.getD_eq_getElem?_getD, List.getElem?_map, List.getElem?_eq_getElem hj,
    Option.map_some', Option.getD_some, List.getD_eq_getElem?_getD,
    List.getElem?_eq_getElem hj, Option.getD_some]

theorem zerosLike_length (img : List (List ℚ)) :
    (zerosLike img).length = img.length := by
  simp [zerosLike]

theorem zerosLike_row_length (img : List (List ℚ)) (r : ℕ) :
    ((zerosLike img).getD r []).length = (img.getD r []).length := by
  unfold zerosLike
  by_cases hr : r < img.length
  · rw [getD_map_in _ _ _ _ [] hr]
    simp
  · rw [List.getD_eq_default _ _ (by simp; omega),
      List.getD_eq_default _ _ (by omega)]

theorem zerosLike_gval (img : List (List ℚ)) (y x : ℕ) :
    gval (zerosLike img) y x = 0 := by
  unfold zerosLike gval
  have hrow : (img.map (fun row => row.map (fun _ => (0 : ℚ)))).getD y [] =
      (img.getD y []).map (fun _ => (0 : ℚ)) := by
    simp only [List.getD_eq_getElem?_getD, List.getElem?_map]
    cases h : img[y]? <;> simp
  rw [hrow]
  simp only [List.getD_eq_getElem?_getD, List.getElem?_map]
  cases h2 : (img[y]?.getD [])[x]? <;> simp [h2]

theorem setSeg_length (row seg : List ℚ) (X : ℕ)
    (h : X + seg.length ≤ row.length) :
    (setSeg row X seg).length = row.length := by
  simp [setSeg]
  omega

theorem setSeg_getD (row seg : List ℚ) (X x : ℕ)
    (h : X + seg.length ≤ row.length) :
    (setSeg row X seg).getD x 0 =
      if X ≤ x ∧ x < X + seg.length then seg.getD (x - X) 0
      else row.getD x 0 := by
  unfold setSeg
  have htake : (row.take X).length = X := by simp; omega
  by_cases h1 : x < X
  · rw [List.getD_append _ _ _ _ (by simp [htake]; omega), List.getD_append _ _ _ _ (by omega),
      if_neg (by omega)]
    rw [List.getD_eq_getElem?_getD, List.getElem?_take, if_pos h1,
      ← List.getD_eq_getElem?_getD]
  · by_cases h2 : x < X + seg.length
    · rw [List.getD_append _ _ _ _ (by simp [htake]; omega),
        List.getD_append_right _ _ _ _ (by omega), htake, if_pos (by omega)]
    · rw [List.getD_append_right _ _ _ _ (by simp [htake]; omega), if_neg (by omega)]
      rw [List.length_append, htake, List.getD_eq_getElem?_getD, List.getElem?_drop,
        ← List.getD_eq_getElem?_getD]
      congr 1
      omega

theorem writeBlock_row (b : List (List ℚ)) (Y X : ℕ) (t : List (List ℚ))
    (y : ℕ) (hfit : Y + t.length ≤ b.length) :
    (writeBlock b Y X t).getD y [] =
      if Y ≤ y ∧ y < Y + t.length then
        setSeg (b.getD y []) X (t.getD (y - Y) [])
      else b.getD y [] := by
  unfold writeBlock
  have htake : (b.take Y).length = Y := by simp; omega
  have hmidlen : (List.zipWith (fun row trow => setSeg row X trow)
      ((b.drop Y).take t.length) t).length = t.length := by
    simp
    omega
  by_cases h1 : y < Y
  · rw [List.getD_append _ _ _ _ (by simp [htake, hmidlen]; omega),
      List.getD_append _ _ _ _ (by omega), if_neg (by omega)]
    rw [List.getD_eq_getElem?_getD, List.getElem?_take, if_pos h1,
      ← List.getD_eq_getElem?_getD]
  · by_cases h2 : y < Y + t.length
    · rw [List.getD_append _ _ _ _ (by simp [htake, hmidlen]; omega),
        List.getD_append_right _ _ _ _ (by omega), htake, if_pos (by omega)]
      have hyY : y - Y < t.length := by omega
      have hyY2 : y - Y < ((b.drop Y).take t.length).length := by simp; omega
      rw [List.getD_eq_getElem?_getD, List.getElem?_eq_getElem
        (by rw [hmidlen]; exact hyY)]
      rw [List.getElem_zipWith, Option.getD_some]
      congr 1
      · rw [List.getElem_take, List.getElem_drop,
          ← List.getD_eq_getElem b [] (by omega)]
        congr 1
        omega
      · rw [← List.getD_eq_getElem t [] hyY]
    · rw [List.getD_append_right _ _ _ _ (by simp [htake, hmidlen]; omega),
        if_neg (by omega)]
      rw [List.length_append, htake, hmidlen, List.getD_eq_getElem?_getD,
        List.getElem?_drop, ← List.getD_eq_getElem?_getD]
      congr 1
      omega

theorem writeBlock_length (b : List (List ℚ)) (Y X : ℕ) (t : List (List ℚ))
    (hfit : Y + t.length ≤ b.length) :
    (writeBlock b Y X t).length = b.length := by
  unfold writeBlock
  simp
  omega

theorem writeBlock_row_length (b : List (List ℚ)) (Y X : ℕ)
    (t : List (List ℚ)) (y : ℕ) (hfit : Y + t.length ≤ b.length)
    (hrow : ∀ j < t.length, X + (t.getD j []).length ≤ (b.getD (Y + j) []).length) :
    ((writeBlock b Y X t).getD y []).length = (b.getD y []).length := by
  rw [writeBlock_row b Y X t y hfit]
  by_cases hy : Y ≤ y ∧ y < Y + t.length
  · rw [if_pos hy]
    rw [setSeg_length _ _ _ (by
      have := hrow (y - Y) (by omega)
      rw [show Y + (y - Y) = y from by omega] at this
      exact this)]
  · rw [if_neg hy]

theorem writeBlock_gval (b : List (List ℚ)) (Y X : ℕ) (t : List (List ℚ))
    (y x : ℕ) (hfit : Y + t.length ≤ b.length)
    (hrow : ∀ j < t.length, X + (t.getD j []).length ≤ (b.getD (Y + j) []).length) :
    gval (writeBlock b Y X t) y x =
      if Y ≤ y ∧ y < Y + t.length ∧ X ≤ x ∧ x < X + (t.getD (y - Y) []).length then
        gval t (y - Y) (x - X)
      else gval b y x := by
  unfold gval
  rw [writeBlock_row b Y X t y hfit]
  by_cases hy : Y ≤ y ∧ y < Y + t.length
  · rw [if_pos hy]
    rw [setSeg_getD _ _ _ _ (by
      have := hrow (y - Y) (by omega)
      rw [show Y + (y - Y) = y from by omega] at this
      exact this)]
    by_cases hx : X ≤ x ∧ x < X + (t.getD (y - Y) []).length
    · rw [if_pos hx, if_pos ⟨hy.1, hy.2, hx.1, hx.2⟩]
    · rw [if_neg hx, if_neg (by tauto)]
  · rw [if_neg hy, if_neg (by tauto)]

/-! ### Shape preservation of the unwrapping passes -/

theorem hPass_length (l s : ℚ) (g : List (List ℚ)) :
    (hPass l s g).length = g.length := by
  simp [hPass, gridMk]

theorem vPass_length (l s : ℚ) (g : List (List ℚ)) :
    (vPass l s g).length = g.length := by
  simp [vPass, gridMk]

theorem hPass_row_length (l s : ℚ) (g : List (List ℚ)) (r : ℕ) :
    ((hPass l s g).getD r []).length = (g.getD r []).length := by
  by_cases hr : r < g.length
  · unfold hPass
    rw [gridMk_row_length _ _ _ _ hr]
  · rw [List.getD_eq_default _ _ (by rw [hPass_length]; omega),
      List.getD_eq_default _ _ (by omega)]

theorem vPass_row_length (l s : ℚ) (g : List (List ℚ)) (r : ℕ) :
    ((vPass l s g).getD r []).length = (g.getD r []).length := by
  by_cases hr : r < g.length
  · unfold vPass
    rw [gridMk_row_length _ _ _ _ hr]
  · rw [List.getD_eq_default _ _ (by rw [vPass_length]; omega),
      List.getD_eq_default _ _ (by omega)]

theorem iterate_shape (f : List (List ℚ) → List (List ℚ))
    (hf1 : ∀ g, (f g).length = g.length)
    (hf2 : ∀ g r, ((f g).getD r []).length = (g.getD r []).length) (n : ℕ) :
    ∀ m, (f^[n] m).length = m.length ∧
      ∀ r, ((f^[n] m).getD r []).length = (m.getD r []).length := by
  induction n with
  | zero => intro m; simp
  | succ k ih =>
    intro m
    rw [Function.iterate_succ_apply]
    exact ⟨((ih (f m)).1).trans (hf1 m), fun r => ((ih (f m)).2 r).trans (hf2 m r)⟩

theorem threshold_unwrap_shape (lam threshold : ℚ) (iterations : ℕ)
    (horizontal vertical : Bool) (m : List (List ℚ)) :
    (threshold_unwrap lam threshold iterations horizontal vertical m).length = m.length ∧
    ∀ r, ((threshold_unwrap lam threshold iterations horizontal vertical m).getD r []).length =
      (m.getD r []).length := by
  simp only [threshold_unwrap]
  refine iterate_shape _ ?_ ?_ _ m
  · intro g
    cases horizontal <;> cases vertical
    · exact rfl
    · exact vPass_length _ _ g
    · exact hPass_length _ _ g
    · exact (vPass_length _ _ _).trans (hPass_length _ _ g)
  · intro g r
    cases horizontal <;> cases vertical
    · exact rfl
    · exact vPass_row_length _ _ g r
    · exact hPass_row_length _ _ g r
    · exact (vPass_row_length _ _ _ r).trans (hPass_row_length _ _ g r)

/-! ### Tile geometry -/

theorem tileOf_length (img : List (List ℚ)) (del Xi Yi : ℕ) :
    (tileOf img del Xi Yi).length = min del (img.length - Yi * del) := by
  simp [tileOf]

theorem tileOf_row_length (img : List (List ℚ)) (del Xi Yi j : ℕ)
    (hrect : rect img) (hj : j < (tileOf img del Xi Yi).length) :
    ((tileOf img del Xi Yi).getD j []).length =
      min del ((img.headD []).length - Xi * del) := by
  rw [tileOf_length] at hj
  unfold tileOf
  rw [getD_map_in _ _ _ _ [] (by simp; omega)]
  have hin : ((img.drop (Yi * del)).take del).getD j [] = img.getD (Yi * del + j) [] := by
    rw [List.getD_eq_getElem?_getD, List.getElem?_take, if_pos (by omega),
      List.getElem?_drop, ← List.getD_eq_getElem?_getD]
  rw [hin]
  simp only [List.length_take, List.length_drop]
  rw [hrect (Yi * del + j) (by omega)]

theorem mem_tilePairs (ny nx a b : ℕ) :
    ((a, b) ∈ tilePairs ny nx) ↔ a < ny ∧ b < nx := by
  unfold tilePairs
  simp only [List.mem_flatMap, List.mem_map, List.mem_range, Prod.mk.injEq]
  constructor
  · rintro ⟨Yi, hYi, Xi, hXi, h1, h2⟩
    omega
  · rintro ⟨h1, h2⟩
    exact ⟨a, h1, b, h2, rfl, rfl⟩

theorem tile_idx_bound (n del i : ℕ) (hdel : 0 < del)
    (hi : i < max 1 (n / del)) : i * del ≤ n := by
  rcases Nat.eq_zero_or_pos (n / del) with h0 | hpos
  · rw [h0] at hi
    simp at hi
    subst hi
    omega
  · have hmax : max 1 (n / del) = n / del := by omega
    rw [hmax] at hi
    have h1 : (i + 1) * del ≤ (n / del) * del := Nat.mul_le_mul_right del hi
    have h2 : (n / del) * del ≤ n := Nat.div_mul_le_self n del
    have h3 : i * del + del = (i + 1) * del := by ring
    omega

/-- Characterization of the tile-write loop: starting from a rectangular
`h × w` buffer, folding block writes over a list of tile indices (tile
`(Yi, Xi)` writing the `del`-clipped block at `(Yi * del, Xi * del)`)
leaves a pixel at the value of its owning tile `(y / del, x / del)` when
that tile is in the list, and untouched otherwise.  Distinct tiles write
disjoint regions, so the fold order does not matter. -/
theorem foldl_writeBlock_gval (del h w : ℕ) (hdel : 0 < del)
    (T : ℕ × ℕ → List (List ℚ)) (P : List (ℕ × ℕ)) :
    ∀ (b0 : List (List ℚ)),
      b0.length = h →
      (∀ r < h, (b0.getD r []).length = w) →
      (∀ pr ∈ P, pr.1 * del ≤ h ∧ pr.2 * del ≤ w ∧
        (T pr).length = min del (h - pr.1 * del) ∧
        (∀ j < (T pr).length, ((T pr).getD j []).length = min del (w - pr.2 * del))) →
      ∀ y < h, ∀ x < w,
      gval (P.foldl (fun b pr => writeBlock b (pr.1 * del) (pr.2 * del) (T pr)) b0) y x =
        if (y / del, x / del) ∈ P then
          gval (T (y / del, x / del)) (y % del) (x % del)
        else gval b0 y x := by
  induction P with
  | nil =>
    intro b0 _ _ _ y _ x _
    simp
  | cons pr P' ih =>
    intro b0 hb0len hb0rect hP y hy x hx
    rw [List.foldl_cons]
    obtain ⟨hY, hX, hTlen, hTrows⟩ := hP pr (List.mem_cons_self pr P')
    have hfit : pr.1 * del + (T pr).length ≤ b0.length := by
      rw [hTlen, hb0len]
      omega
    have hrow : ∀ j < (T pr).length,
        pr.2 * del + ((T pr).getD j []).length ≤ (b0.getD (pr.1 * del + j) []).length := by
      intro j hj
      have hjlt : pr.1 * del + j < h := by
        rw [hTlen] at hj
        omega
      rw [hTrows j hj, hb0rect (pr.1 * del + j) hjlt]
      omega
    have hlen' : (writeBlock b0 (pr.1 * del) (pr.2 * del) (T pr)).length = h :=
      (writeBlock_length _ _ _ _ hfit).trans hb0len
    have hrect' : ∀ r < h,
        ((writeBlock b0 (pr.1 * del) (pr.2 * del) (T pr)).getD r []).length = w :=
      fun r hr => (writeBlock_row_length _ _ _ _ r hfit hrow).trans (hb0rect r hr)
    rw [ih (writeBlock b0 (pr.1 * del) (pr.2 * del) (T pr)) hlen' hrect'
      (fun q hq => hP q (List.mem_cons_of_mem pr hq)) y hy x hx]
    have hdm_y : del * (y / del) + y % del = y := Nat.div_add_mod y del
    have hm_y : y % del < del := Nat.mod_lt _ hdel
    have hdm_x : del * (x / del) + x % del = x := Nat.div_add_mod x del
    have hm_x : x % del < del := Nat.mod_lt _ hdel
    by_cases hmem : (y / del, x / del) ∈ P'
    · rw [if_pos hmem, if_pos (List.mem_cons_of_mem pr hmem)]
    · rw [if_neg hmem, writeBlock_gval b0 _ _ _ y x hfit hrow]
      by_cases howner : pr = (y / del, x / del)
      · have hc1 : pr.1 * del = del * (y / del) := by
          rw [howner, Nat.mul_comm]
        have hc2 : pr.2 * del = del * (x / del) := by
          rw [howner, Nat.mul_comm]
        have hj : y - pr.1 * del < (T pr).length := by
          rw [hTlen]
          omega
        have hcond : pr.1 * del ≤ y ∧ y < pr.1 * del + (T pr).length ∧
            pr.2 * del ≤ x ∧
            x < pr.2 * del + ((T pr).getD (y - pr.1 * del) []).length := by
          rw [hTlen, hTrows _ hj]
          refine ⟨by omega, by omega, by omega, by omega⟩
        rw [if_pos hcond, if_pos (List.mem_cons.mpr (Or.inl howner.symm)),
          ← howner,
          show y - pr.1 * del = y % del from by omega,
          show x - pr.2 * del = x % del from by omega]
      · have hcond : ¬(pr.1 * del ≤ y ∧ y < pr.1 * del + (T pr).length ∧
            pr.2 * del ≤ x ∧
            x < pr.2 * del + ((T pr).getD (y - pr.1 * del) []).length) := by
          rintro ⟨c1, c2, c3, c4⟩
          apply howner
          have hj : y - pr.1 * del < (T pr).length := by omega
          rw [hTlen] at c2
          rw [hTrows _ hj] at c4
          have hyd : y / del = pr.1 :=
            Nat.div_eq_of_lt_le c1 (by rw [Nat.succ_mul]; omega)
          have hxd : x / del = pr.2 :=
            Nat.div_eq_of_lt_le c3 (by rw [Nat.succ_mul]; omega)
          rw [hyd, hxd]
        rw [if_neg hcond, if_neg (by
          simp only [List.mem_cons]
          push_neg
          exact ⟨fun hh => howner hh.symm, hmem⟩)]

/-! ### Equivalence of the vectorised passes with the sequential raster scan -/

theorem getD_cons_if (v : ℚ) (rs : List ℚ) (k : ℕ) :
    (v :: rs).getD k 0 = if k = 0 then v else rs.getD (k - 1) 0 := by
  cases k with
  | zero => simp
  | succ m => simp

theorem seqTail_eq (limit step : ℚ) (valid : ℕ → Bool) (rest : List ℚ) :
    ∀ (idx : ℕ) (last offset : ℚ),
    seqTail limit step valid idx last offset rest =
      (List.range rest.length).map (fun i =>
        rest.getD i 0 + (offset + ∑ k in Finset.range (i + 1),
          (if valid (idx + k) then
            jumpStep limit step (rest.getD k 0 -
              (if k = 0 then last else rest.getD (k - 1) 0)) else 0))) := by
  induction rest with
  | nil => intro idx last offset; rfl
  | cons v rs ih =>
    intro idx last offset
    simp only [seqTail]
    rw [ih (idx + 1) v
      (offset + (if valid idx then jumpStep limit step (v - last) else 0))]
    rw [List.length_cons, List.range_succ_eq_map, List.map_cons, List.map_map]
    congr 1
    · simp [Finset.sum_range_one]
    · apply List.map_congr_left
      intro i hi
      simp only [Function.comp_apply, List.getD_cons_succ]
      conv_rhs => rw [Finset.sum_range_succ']
      have hsum : ∀ k ∈ Finset.range (i + 1),
          (if valid (idx + (k + 1)) then
            jumpStep limit step ((v :: rs).getD (k + 1) 0 -
              (if k + 1 = 0 then last else (v :: rs).getD (k + 1 - 1) 0)) else 0) =
          (if valid (idx + 1 + k) then
            jumpStep limit step (rs.getD k 0 -
              (if k = 0 then v else rs.getD (k - 1) 0)) else 0) := by
        intro k _
        have h1 : idx + (k + 1) = idx + 1 + k := by omega
        rw [h1, if_neg (Nat.succ_ne_zero k), Nat.add_sub_cancel,
          List.getD_cons_succ, getD_cons_if]
      rw [Finset.sum_congr rfl hsum]
      have h0 : (if valid (idx + 0) then
          jumpStep limit step ((v :: rs).getD 0 0 -
            (if 0 = 0 then last else (v :: rs).getD (0 - 1) 0)) else 0) =
          (if valid idx then jumpStep limit step (v - last) else 0) := by
        simp
      rw [h0]
      ring

theorem seqRow_eq (limit step : ℚ) (valid : ℕ → Bool) (L : List ℚ) :
    seqRow limit step valid L = (List.range L.length).map (fun c =>
      L.getD c 0 + ∑ k in Finset.range c,
        (if valid (k + 1) then
          jumpStep limit step (L.getD (k + 1) 0 - L.getD k 0) else 0)) := by
  cases L with
  | nil => rfl
  | cons v rs =>
    simp only [seqRow]
    rw [seqTail_eq limit step valid rs 1 v 0]
    rw [List.length_cons, List.range_succ_eq_map, List.map_cons, List.map_map]
    congr 1
    · simp
    · apply List.map_congr_left
      intro i hi
      simp only [Function.comp_apply, List.getD_cons_succ, zero_add]
      congr 1
      apply Finset.sum_congr rfl
      intro k _
      have h1 : 1 + k = k + 1 := by omega
      rw [h1, getD_cons_if]

theorem hPassM_eq_seq (limit step : ℚ) (valid : ℕ → ℕ → Bool)
    (g : List (List ℚ)) :
    hPassM limit step valid g = hSeqPass limit step valid g := by
  unfold hPassM hSeqPass gridMk
  apply List.map_congr_left
  intro r _
  rw [seqRow_eq]
  rfl

theorem vPassM_eq_seq (limit step : ℚ) (valid : ℕ → ℕ → Bool)
    (g : List (List ℚ)) :
    vPassM limit step valid g = vSeqPass limit step valid g := by
  unfold vPassM vSeqPass gridMk
  apply List.map_congr_left
  intro r hr
  apply List.map_congr_left
  intro c hc
  have hcol : ∀ j < g.length, (colOf g c).getD j 0 = gval g j c := by
    intro j hj
    unfold colOf
    rw [getD_range_map _ _ _ _ hj]
  rw [seqRow_eq]
  have hlen : (colOf g c).length = g.length := by simp [colOf]
  rw [hlen, getD_range_map _ _ _ _ (List.mem_range.mp hr),
    hcol r (List.mem_range.mp hr)]
  beta_reduce
  congr 1
  apply Finset.sum_congr rfl
  intro k hk
  have hkr := Finset.mem_range.mp hk
  have hrg := List.mem_range.mp hr
  rw [hcol (k + 1) (by omega), hcol k (by omega)]

/-! ### Exact least-squares facts for the linear trend fit -/

theorem sum_range_cast (n : ℕ) :
    ∑ i in Finset.range n, (i : ℚ) = n * (n - 1) / 2 := by
  induction n with
  | zero => norm_num
  | succ m ih =>
    rw [Finset.sum_range_succ, ih]
    push_cast
    ring

theorem sum_range_cast_sq (n : ℕ) :
    ∑ i in Finset.range n, (i : ℚ) ^ 2 = n * (n - 1) * (2 * n - 1) / 6 := by
  induction n with
  | zero => norm_num
  | succ m ih =>
    rw [Finset.sum_range_succ, ih]
    push_cast
    ring

theorem list_sum_range_map (f : ℕ → ℚ) (n : ℕ) :
    ((List.range n).map f).sum = ∑ i in Finset.range n, f i := by
  induction n with
  | zero => simp
  | succ m ih =>
    rw [List.range_succ, List.map_append, List.sum_append, Finset.sum_range_succ, ih]
    simp

theorem headD_range_map {α : Type} (f : ℕ → α) (n : ℕ) (d : α) (h : 0 < n) :
    ((List.range n).map f).headD d = f 0 := by
  obtain ⟨m, rfl⟩ : ∃ m, n = m + 1 := ⟨n - 1, by omega⟩
  rw [List.range_succ_eq_map]
  simp

/-- The exact degree-1 least-squares fit recovers the coefficients of an
affine profile (the system is nonsingular as soon as it has two sample
points). -/
theorem polyfit1_affine (A C : ℚ) (n : ℕ) (hn : 2 ≤ n) :
    polyfit1 ((List.range n).map (fun i : ℕ => A * (i : ℚ) + C)) = .ok (A, C) := by
  have hn0 : ((n : ℚ)) ≠ 0 := by
    have : (2 : ℚ) ≤ (n : ℚ) := by exact_mod_cast hn
    linarith
  have hsum : ((List.range n).map (fun i : ℕ => A * (i : ℚ) + C)).sum =
      A * ((n : ℚ) * ((n : ℚ) - 1) / 2) + C * (n : ℚ) := by
    rw [list_sum_range_map, Finset.sum_add_distrib, ← Finset.mul_sum,
      sum_range_cast, Finset.sum_const, Finset.card_range, nsmul_eq_mul]
    ring
  have hxy : ∑ i in Finset.range n,
      (i : ℚ) * (((List.range n).map (fun i : ℕ => A * (i : ℚ) + C)).getD i 0) =
      A * ((n : ℚ) * ((n : ℚ) - 1) * (2 * (n : ℚ) - 1) / 6) +
        C * ((n : ℚ) * ((n : ℚ) - 1) / 2) := by
    rw [Finset.sum_congr rfl (fun i hi => by
      rw [getD_range_map _ _ _ _ (Finset.mem_range.mp hi)])]
    have : ∀ i ∈ Finset.range n,
        (i : ℚ) * (A * (i : ℚ) + C) = A * (i : ℚ) ^ 2 + C * (i : ℚ) := by
      intro i _
      ring
    rw [Finset.sum_congr rfl this, Finset.sum_add_distrib, ← Finset.mul_sum,
      ← Finset.mul_sum, sum_range_cast, sum_range_cast_sq]
  have hd : (n : ℚ) * ((n : ℚ) * ((n : ℚ) - 1) * (2 * (n : ℚ) - 1) / 6) -
      (n : ℚ) * ((n : ℚ) - 1) / 2 * ((n : ℚ) * ((n : ℚ) - 1) / 2) ≠ 0 := by
    have h2 : (2 : ℚ) ≤ (n : ℚ) := by exact_mod_cast hn
    have key : (n : ℚ) * ((n : ℚ) * ((n : ℚ) - 1) * (2 * (n : ℚ) - 1) / 6) -
        (n : ℚ) * ((n : ℚ) - 1) / 2 * ((n : ℚ) * ((n : ℚ) - 1) / 2) =
        (n : ℚ) ^ 2 * ((n : ℚ) - 1) * ((n : ℚ) + 1) / 12 := by
      ring
    rw [key]
    have h1 : (0 : ℚ) < (n : ℚ) ^ 2 := by positivity
    have h3 : (0 : ℚ) < (n : ℚ) - 1 := by linarith
    have h4 : (0 : ℚ) < (n : ℚ) + 1 := by linarith
    exact ne_of_gt (div_pos (mul_pos (mul_pos h1 h3) h4) (by norm_num))
  simp only [polyfit1, List.length_map, List.length_range, hsum, hxy,
    sum_range_cast, sum_range_cast_sq]
  rw [if_neg hd]
  simp only [Except.ok.injEq, Prod.mk.injEq]
  have hslope : ((n : ℚ) * (A * ((n : ℚ) * ((n : ℚ) - 1) * (2 * (n : ℚ) - 1) / 6) +
      C * ((n : ℚ) * ((n : ℚ) - 1) / 2)) -
      (n : ℚ) * ((n : ℚ) - 1) / 2 * (A * ((n : ℚ) * ((n : ℚ) - 1) / 2) + C * (n : ℚ))) /
      ((n : ℚ) * ((n : ℚ) * ((n : ℚ) - 1) * (2 * (n : ℚ) - 1) / 6) -
      (n : ℚ) * ((n : ℚ) - 1) / 2 * ((n : ℚ) * ((n : ℚ) - 1) / 2)) = A := by
    rw [div_eq_iff hd]
    ring
  refine ⟨hslope, ?_⟩
  rw [hslope, div_eq_iff hn0]
  ring

theorem gridMk_const {α : Type} (h w : ℕ) (z : α) :
    gridMk h (fun _ => w) (fun _ _ => z) = List.replicate h (List.replicate w z) := by
  unfold gridMk
  rw [show (fun (r : ℕ) => List.map (fun _ => z) (List.range w)) =
      fun _ => List.replicate w z from funext (fun r => by
    rw [List.map_const']
    simp)]
  rw [List.map_const']
  simp

/-! ### Claim theorems -/

/-- Claim C8 (confirmed): for every step count outside {3, 4, 5},
`compute_phase` fails with an error surfaced to the caller; it never
silently defaults to a supported step count. -/
theorem compute_phase_invalid_steps (images : List (List (List ℚ))) (n : ℕ)
    (h3 : n ≠ 3) (h4 : n ≠ 4) (h5 : n ≠ 5) :
    compute_phase images n = .error "Поддерживаются только 3, 4, или 5 шагов." := by
  simp [compute_phase, computeNumDen, h3, h4, h5, Except.map]

/-- Witness for C8 at the concrete unsupported step count 6. -/
theorem compute_phase_invalid_steps_witness :
    compute_phase [] 6 = .error "Поддерживаются только 3, 4, или 5 шагов." :=
  compute_phase_invalid_steps [] 6 (by decide) (by decide) (by decide)

/-- Claim C7 (confirmed): for every valid step count `N ∈ {3, 4, 5}` and a
series of `N` identical frames, the wrapped-phase numerator and
denominator are both zero at every pixel, and the result is the
well-defined value `atan2 0 0 = 0` everywhere — never an error. -/
theorem compute_phase_equal_frames (n : ℕ) (G : List (List ℚ))
    (hn : n = 3 ∨ n = 4 ∨ n = 5) :
    computeNumDen (List.replicate n G) n =
      .ok (gridMk G.length (fun _ => (G.headD []).length)
        (fun _ _ => (((0 : ℚ), (0 : ℚ)), ((0 : ℚ), (0 : ℚ))))) ∧
    compute_phase (List.replicate n G) n =
      .ok (gridMk G.length (fun _ => (G.headD []).length)
        (fun _ _ => atan2 0 0)) ∧
    atan2 0 0 = 0 := by
  have hat : atan2 0 0 = 0 := by
    simp [atan2]
  have hnd : computeNumDen (List.replicate n G) n =
      .ok (gridMk G.length (fun _ => (G.headD []).length)
        (fun _ _ => (((0 : ℚ), (0 : ℚ)), ((0 : ℚ), (0 : ℚ))))) := by
    rcases hn with rfl | rfl | rfl
    · simp only [computeNumDen, reduceIte,
        getD_replicate 3 0 G [] (by omega), getD_replicate 3 1 G [] (by omega),
        getD_replicate 3 2 G [] (by omega)]
      exact congrArg Except.ok (gridMk_congr _ _ _ _ (fun r hr c hc => by
        simp only [Prod.mk.injEq]
        refine ⟨⟨by ring, trivial⟩, trivial, by ring⟩))
    · simp only [computeNumDen, reduceIte,
        getD_replicate 4 0 G [] (by omega), getD_replicate 4 1 G [] (by omega),
        getD_replicate 4 2 G [] (by omega), getD_replicate 4 3 G [] (by omega)]
      exact congrArg Except.ok (gridMk_congr _ _ _ _ (fun r hr c hc => by
        simp only [Prod.mk.injEq]
        refine ⟨⟨by ring, trivial⟩, trivial, by ring⟩))
    · simp only [computeNumDen, reduceIte,
        getD_replicate 5 0 G [] (by omega), getD_replicate 5 1 G [] (by omega),
        getD_replicate 5 2 G [] (by omega), getD_replicate 5 3 G [] (by omega),
        getD_replicate 5 4 G [] (by omega)]
      exact congrArg Except.ok (gridMk_congr _ _ _ _ (fun r hr c hc => by
        simp only [Prod.mk.injEq]
        refine ⟨⟨trivial, by ring⟩, by ring, trivial⟩))
  refine ⟨hnd, ?_, hat⟩
  have hq : q3toReal (0, 0) = 0 := by simp [q3toReal]
  rw [compute_phase, hnd]
  simp only [Except.map]
  exact congrArg Except.ok ((gridMk_map _ _ _ _).trans
    (gridMk_congr _ _ _ _ (fun r _ c _ => by rw [hq])))

/-- Witness for C7 at step count 3 and the concrete frame `[[1, 2]]`. -/
theorem compute_phase_equal_frames_witness :
    (3 = 3 ∨ 3 = 4 ∨ 3 = 5) ∧
    computeNumDen (List.replicate 3 [[(1 : ℚ), 2]]) 3 =
      .ok (gridMk ([[(1 : ℚ), 2]]).length
        (fun _ => ([[(1 : ℚ), 2]].headD []).length)
        (fun _ _ => (((0 : ℚ), (0 : ℚ)), ((0 : ℚ), (0 : ℚ))))) :=
  ⟨Or.inl rfl, (compute_phase_equal_frames 3 [[(1 : ℚ), 2]] (Or.inl rfl)).1⟩

/-- Claim C2, amended (corrected): for a positive tile size the tile mask
has dimensions `(max 1 (W / tileSize), max 1 (H / tileSize))` — floor
division, with a floor of one tile — not the ceiling division the claim
states. -/
theorem tilesMask_dims (lam threshold : ℚ) (hor ver : Bool)
    (img : List (List ℚ)) (del : ℕ) (hdel : 0 < del) :
    (tilesMask lam threshold hor ver img del).length =
      max 1 ((img.headD []).length / del) ∧
    ∀ i < (tilesMask lam threshold hor ver img del).length,
      ((tilesMask lam threshold hor ver img del).getD i []).length =
        max 1 (img.length / del) := by
  constructor
  · simp [tilesMask]
  · intro i hi
    simp only [tilesMask] at hi ⊢
    rw [List.length_map, List.length_range] at hi
    rw [getD_range_map _ _ _ _ hi]
    simp

/-- Witness for C2's amended dimension statement. -/
theorem tilesMask_dims_witness :
    (tilesMask 7500 (4 / 5) true true [[0, 0, 0], [0, 0, 0]] 2).length =
      max 1 (3 / 2) :=
  (tilesMask_dims 7500 (4 / 5) true true [[0, 0, 0], [0, 0, 0]] 2 (by decide)).1

/-- Counterexample to claim C2 as stated: a 2 × 3 image with tile size 2
yields a mask of width `max 1 (3 / 2) = 1`, not `ceil (3 / 2) = 2`. -/
theorem tilesMask_dims_cx :
    (tilesMask 7500 (4 / 5) true true [[0, 0, 0], [0, 0, 0]] 2).length = 1 ∧
    (tilesMask 7500 (4 / 5) true true [[0, 0, 0], [0, 0, 0]] 2).length ≠
      (3 + 2 - 1) / 2 := by
  constructor <;> decide

/-- Claim C4, amended (corrected): the degree-2 fit fails exactly on
profiles with at most one sample (empty x → TypeError, one sample →
LinAlgError; from two samples on, `np.polyfit` always returns
coefficients, a two-sample fit being merely rank-deficient with a
RankWarning), and the polynomial variant recovers such a failure locally
by substituting the all-zero trend. -/
theorem fit_polynomial_trend_recovers (p : List ℚ) (n : ℕ) :
    (polyfit2 p = .error () ↔ p.length ≤ 1) ∧
    (polyfit2 p = .error () → fit_polynomial_trend p n = List.replicate n 0) := by
  constructor
  · match p with
    | [] => simp [polyfit2]
    | [y] => simp [polyfit2]
    | [y0, y1] => simp [polyfit2]
    | y0 :: y1 :: y2 :: rest => simp [polyfit2]
  · intro h
    simp [fit_polynomial_trend, h]

/-- Witness for C4's amended statement: the one-sample profile `[5]` fails
the fit and gets the zero trend. -/
theorem fit_polynomial_trend_recovers_witness :
    (polyfit2 [(5 : ℚ)] = .error () ↔ [(5 : ℚ)].length ≤ 1) ∧
      fit_polynomial_trend [(5 : ℚ)] 1 = List.replicate 1 0 :=
  ⟨(fit_polynomial_trend_recovers [(5 : ℚ)] 1).1,
    (fit_polynomial_trend_recovers [(5 : ℚ)] 1).2 rfl⟩

/-- Claim C6 (confirmed): on a rectangular map in which no adjacent
difference along an enabled axis exceeds `0.5 * λ * threshold`,
`threshold_unwrap` returns the map unchanged, so a second application
yields output identical to the first. -/
theorem threshold_unwrap_smooth_id (lam threshold : ℚ) (iterations : ℕ)
    (horizontal vertical : Bool) (m : List (List ℚ)) (hrect : rect m)
    (hh : horizontal = true → smoothH (1 / 2 * lam * threshold) m)
    (hv : vertical = true → smoothV (1 / 2 * lam * threshold) m) :
    threshold_unwrap lam threshold iterations horizontal vertical m = m ∧
    threshold_unwrap lam threshold iterations horizontal vertical
        (threshold_unwrap lam threshold iterations horizontal vertical m) =
      threshold_unwrap lam threshold iterations horizontal vertical m := by
  have hfix : threshold_unwrap lam threshold iterations horizontal vertical m = m := by
    simp only [threshold_unwrap]
    apply Function.iterate_fixed
    cases horizontal
    · cases vertical
      · rfl
      · exact vPass_smooth_id _ _ _ hrect (hv rfl)
    · cases vertical
      · exact hPass_smooth_id _ _ _ (hh rfl)
      · show vPass (1 / 2 * lam * threshold) (1 / 2 * lam)
            (hPass (1 / 2 * lam * threshold) (1 / 2 * lam) m) = m
        rw [hPass_smooth_id _ _ _ (hh rfl)]
        exact vPass_smooth_id _ _ _ hrect (hv rfl)
  exact ⟨hfix, by rw [hfix, hfix]⟩

/-- Witness for C6 on the concrete smooth 2 × 2 map `[[0, 1], [1, 2]]`. -/
theorem threshold_unwrap_smooth_id_witness :
    threshold_unwrap 7500 (4 / 5) 1 true true [[0, 1], [1, 2]] = [[0, 1], [1, 2]] ∧
    threshold_unwrap 7500 (4 / 5) 1 true true
        (threshold_unwrap 7500 (4 / 5) 1 true true [[0, 1], [1, 2]]) =
      threshold_unwrap 7500 (4 / 5) 1 true true [[0, 1], [1, 2]] :=
  threshold_unwrap_smooth_id 7500 (4 / 5) 1 true true [[0, 1], [1, 2]]
    (by unfold rect; decide)
    (fun _ => by
      intro r hr k hk
      simp only [List.length_cons, List.length_nil] at hr
      interval_cases r <;>
      · have hk1 : k < 1 := by simpa using hk
        obtain rfl : k = 0 := by omega
        norm_num [gval])
    (fun _ => by
      intro k hk c hc
      have hk1 : k < 1 := by simpa using hk
      have hc2 : c < 2 := by simpa using hc
      obtain rfl : k = 0 := by omega
      interval_cases c <;> norm_num [gval])

/-- Claim C5, amended (corrected): when every tile of a rectangular mask is
marked bad and the expanded mask covers the whole map
(`cols ≤ nx * tileSize` and `rows ≤ ny * tileSize`), `special_unwrap` is
the identity: the accumulated offset stays 0 and every pixel is rewritten
as `value + 0`.  (Pixels beyond the expanded mask extent are treated as
unmasked, so without the coverage condition the identity fails.) -/
theorem special_unwrap_all_masked_id (lam threshold : ℚ)
    (tm : List (List Bool)) (del : ℕ) (p : List (List ℚ)) (hrect : rect p)
    (hmask : allTrueRect tm)
    (hw : (p.headD []).length ≤ tm.length * del)
    (hh : p.length ≤ (tm.headD []).length * del) :
    special_unwrap lam threshold tm del p = p := by
  obtain ⟨hmr, hmt⟩ := hmask
  have hvalid : ∀ r < p.length, ∀ c < (p.headD []).length,
      (fun r c => !(maskAt tm del p.length ((p.headD []).length) r c)) r c = false := by
    intro r hr c hc
    have h1 : c < tm.length * del := lt_of_lt_of_le hc hw
    have h2 : r < (tm.headD []).length * del := lt_of_lt_of_le hr hh
    have hx : c / del < tm.length :=
      Nat.div_lt_of_lt_mul (by rw [Nat.mul_comm]; exact h1)
    have hy : r / del < (tm.headD []).length :=
      Nat.div_lt_of_lt_mul (by rw [Nat.mul_comm]; exact h2)
    simp only [maskAt]
    rw [if_pos ⟨lt_min hc h1, lt_min hr h2⟩,
      hmt (c / del) hx (r / del) (by rw [hmr (c / del) hx]; exact hy)]
    rfl
  simp only [special_unwrap]
  apply Function.iterate_fixed
  rw [hPassM_all_invalid _ _ _ _ hrect hvalid,
    vPassM_all_invalid _ _ _ _ hrect hvalid]

/-- Witness for C5's amended statement: a fully covered all-bad mask leaves
the concrete map `[[1, 2], [3, 4]]` unchanged. -/
theorem special_unwrap_all_masked_id_witness :
    special_unwrap 7500 (4 / 5) [[true, true], [true, true]] 1 [[1, 2], [3, 4]] =
      [[1, 2], [3, 4]] :=
  special_unwrap_all_masked_id 7500 (4 / 5) [[true, true], [true, true]] 1
    [[1, 2], [3, 4]] (by unfold rect; decide)
    (by unfold allTrueRect bval; decide) (by decide) (by decide)

/-- Counterexample to claim C5 as stated: on the 1 × 3 map `[[0, 4000, 0]]`
with tile size 2 and the all-bad 1 × 1 mask `[[true]]`, the pixel at
column 2 lies beyond the expanded mask extent, is treated as unmasked, and
receives a correction: the output is `[[0, 4000, 3750]]`, not the input. -/
theorem special_unwrap_all_masked_cx :
    special_unwrap 7500 (4 / 5) [[true]] 2 [[0, 4000, 0]] = [[0, 4000, 3750]] ∧
    [[(0 : ℚ), 4000, 3750]] ≠ [[0, 4000, 0]] := by
  constructor
  · norm_num [special_unwrap, iterate_three, hPassM, vPassM, gridMk, gval,
      bval, maskAt, jumpStep, List.range_succ, Finset.sum_range_succ]
  · norm_num

/-- Claim C1, amended (corrected): `special_unwrap` performs exactly 3
repetitions of a horizontal-then-vertical raster pass in which the running
offset is updated only when the current pixel's enclosing tile (looked up
by integer division of its coordinates by the tile size, within the
expanded mask extent; pixels beyond it count as unmasked) is unmasked, and
every pixel is rewritten as `value + currentOffset` — but the last-seen
value is updated at every pixel, masked or not: the jump test always
compares against the immediate predecessor, not against the last unmasked
sample as the claim states. -/
theorem special_unwrap_eq_seq (lam threshold : ℚ) (tm : List (List Bool))
    (del : ℕ) (p : List (List ℚ)) :
    special_unwrap lam threshold tm del p = specialSeqCode lam threshold tm del p := by
  have hfun : ∀ (valid : ℕ → ℕ → Bool) (l s : ℚ),
      (fun g => vPassM l s valid (hPassM l s valid g)) =
      (fun g => vSeqPass l s valid (hSeqPass l s valid g)) := by
    intro valid l s
    funext g
    rw [hPassM_eq_seq, vPassM_eq_seq]
  simp only [special_unwrap, specialSeqCode]
  rw [hfun]

/-- Counterexample to claim C1 as stated: on the 1 × 3 row `[0, 4000, 0]`
with one-pixel tiles and only the middle tile masked, the claim's
semantics (last-seen value frozen across the masked pixel) leaves the row
unchanged, but the code compares pixel 2 with its immediate predecessor
4000, sees a downward jump, and writes 3750. -/
theorem special_unwrap_ne_claim_cx :
    special_unwrap 7500 (4 / 5) [[false], [true], [false]] 1 [[0, 4000, 0]] =
      [[0, 4000, 3750]] ∧
    specialSeqClaim 7500 (4 / 5) [[false], [true], [false]] 1 [[0, 4000, 0]] =
      [[0, 4000, 0]] ∧
    special_unwrap 7500 (4 / 5) [[false], [true], [false]] 1 [[0, 4000, 0]] ≠
      specialSeqClaim 7500 (4 / 5) [[false], [true], [false]] 1 [[0, 4000, 0]] := by
  have e1 : special_unwrap 7500 (4 / 5) [[false], [true], [false]] 1
      [[0, 4000, 0]] = [[0, 4000, 3750]] := by
    norm_num [special_unwrap, iterate_three, hPassM, vPassM, gridMk, gval,
      bval, maskAt, jumpStep, List.range_succ, Finset.sum_range_succ]
  have e2 : specialSeqClaim 7500 (4 / 5) [[false], [true], [false]] 1
      [[0, 4000, 0]] = [[0, 4000, 0]] := by
    norm_num [specialSeqClaim, iterate_three, vSeqClaimPass, hSeqClaimPass,
      seqClaimRow, seqClaimTail, colOf, gval, bval, maskAt, jumpStep,
      List.range_succ]
  refine ⟨e1, e2, ?_⟩
  rw [e1, e2]
  norm_num

/-- Claim C3, amended (corrected): with `use_special` off, the assembled
output of `tile_unwrap` agrees with the one-iteration local unwrap of the
owning tile `(x / tileSize, y / tileSize)` at every pixel of the covered
region `x < nx * tileSize ∧ y < ny * tileSize` (with
`nx = max 1 (W / tileSize)`, `ny = max 1 (H / tileSize)`, each such pixel
written exactly once), while pixels in the trailing remainder strips are
never written by any tile and keep the zero initialisation of
`np.zeros_like` — the output is not everywhere "written exactly once by
its owning tile" as the claim states.  Tiles are clipped to the image
extent only when the image is smaller than one tile. -/
theorem tile_unwrap_assembly (lam threshold : ℚ) (del : ℕ)
    (horizontal vertical : Bool) (img : List (List ℚ))
    (hdel : 0 < del) (hrect : rect img) :
    ∀ y < img.length, ∀ x < (img.headD []).length,
    gval (tile_unwrap lam threshold del horizontal vertical false img) y x =
      if x < max 1 ((img.headD []).length / del) * del ∧
         y < max 1 (img.length / del) * del then
        gval (threshold_unwrap lam threshold 1 horizontal vertical
          (tileOf img del (x / del) (y / del))) (y % del) (x % del)
      else 0 := by
  intro y hy x hx
  have hpairs : ∀ pr ∈ tilePairs (max 1 (img.length / del))
      (max 1 ((img.headD []).length / del)),
      pr.1 * del ≤ img.length ∧ pr.2 * del ≤ (img.headD []).length ∧
      (threshold_unwrap lam threshold 1 horizontal vertical
        (tileOf img del pr.2 pr.1)).length = min del (img.length - pr.1 * del) ∧
      (∀ j < (threshold_unwrap lam threshold 1 horizontal vertical
          (tileOf img del pr.2 pr.1)).length,
        ((threshold_unwrap lam threshold 1 horizontal vertical
          (tileOf img del pr.2 pr.1)).getD j []).length =
          min del ((img.headD []).length - pr.2 * del)) := by
    intro pr hpr
    rw [mem_tilePairs] at hpr
    have hshape := threshold_unwrap_shape lam threshold 1 horizontal vertical
      (tileOf img del pr.2 pr.1)
    refine ⟨tile_idx_bound _ _ _ hdel hpr.1, tile_idx_bound _ _ _ hdel hpr.2,
      hshape.1.trans (tileOf_length img del pr.2 pr.1), ?_⟩
    intro j hj
    rw [hshape.2 j]
    have hj' : j < (tileOf img del pr.2 pr.1).length := by
      rw [← hshape.1]
      exact hj
    exact tileOf_row_length img del pr.2 pr.1 j hrect hj'
  have happ := foldl_writeBlock_gval del img.length ((img.headD []).length) hdel
    (fun pr => threshold_unwrap lam threshold 1 horizontal vertical
      (tileOf img del pr.2 pr.1))
    (tilePairs (max 1 (img.length / del)) (max 1 ((img.headD []).length / del)))
    (zerosLike img) (zerosLike_length img)
    (fun r hr => (zerosLike_row_length img r).trans (hrect r hr))
    hpairs y hy x hx
  rw [show tile_unwrap lam threshold del horizontal vertical false img =
      (tilePairs (max 1 (img.length / del))
        (max 1 ((img.headD []).length / del))).foldl
        (fun b pr => writeBlock b (pr.1 * del) (pr.2 * del)
          (threshold_unwrap lam threshold 1 horizontal vertical
            (tileOf img del pr.2 pr.1))) (zerosLike img) from rfl]
  rw [happ]
  by_cases hcov : x < max 1 ((img.headD []).length / del) * del ∧
      y < max 1 (img.length / del) * del
  · rw [if_pos hcov, if_pos (by
      rw [mem_tilePairs]
      exact ⟨(Nat.div_lt_iff_lt_mul hdel).mpr hcov.2,
        (Nat.div_lt_iff_lt_mul hdel).mpr hcov.1⟩)]
  · rw [if_neg hcov, if_neg (by
      rw [mem_tilePairs]
      rintro ⟨h1, h2⟩
      exact hcov ⟨(Nat.div_lt_iff_lt_mul hdel).mp h2,
        (Nat.div_lt_iff_lt_mul hdel).mp h1⟩)]
    exact zerosLike_gval img y x

/-- Witness for C3's amended statement: on the 1 × 3 map `[[5, 5, 5]]`
with tile size 2, the pixel at column 2 lies in the remainder strip
(`2 < max 1 (3 / 2) * 2` is false) and keeps the zero initialisation. -/
theorem tile_unwrap_assembly_witness :
    gval (tile_unwrap 7500 (4 / 5) 2 true true false [[5, 5, 5]]) 0 2 = 0 := by
  have h := tile_unwrap_assembly 7500 (4 / 5) 2 true true [[5, 5, 5]]
    (by omega) (by unfold rect; decide) 0 (by decide) 2 (by decide)
  simpa using h

/-- Counterexample to claim C3 as stated: the smooth 1 × 3 map
`[[5, 5, 5]]` with tile size 2 assembles to `[[5, 5, 0]]` — the remainder
pixel is never written by its (nonexistent, because the grid uses floor
division) owning tile and stays 0 — so the output differs from the
identity the claim implies on a smooth map. -/
theorem tile_unwrap_assembly_cx :
    tile_unwrap 7500 (4 / 5) 2 true true false [[(5 : ℚ), 5, 5]] = [[5, 5, 0]] ∧
    [[(5 : ℚ), 5, 0]] ≠ [[5, 5, 5]] := by
  have h2 : threshold_unwrap 7500 (4 / 5) 1 true true [[(5 : ℚ), 5]] =
      [[(5 : ℚ), 5]] := by
    norm_num [threshold_unwrap, Function.iterate_one, hPass, vPass, gridMk,
      gval, jumpStep, List.range_succ, Finset.sum_range_succ]
  have h3 : tile_unwrap 7500 (4 / 5) 2 true true false [[(5 : ℚ), 5, 5]] =
      writeBlock [[0, 0, 0]] 0 0
        (threshold_unwrap 7500 (4 / 5) 1 true true [[(5 : ℚ), 5]]) := rfl
  constructor
  · rw [h3, h2]
    rfl
  · intro hcontra
    have h5 := congrArg (fun l => gval l 0 2) hcontra
    simp [gval] at h5

/-- Claim C9 (confirmed): on a pure tilted plane `z = a * x + b * y + c`
(with at least two rows and two columns, so both fits are nonsingular),
`remove_linear_trend` — horizontal trend fitted on the first row and
removed first, vertical trend then fitted on the already corrected first
column — returns the all-zero map, exactly. -/
theorem remove_linear_trend_plane (a b c : ℚ) (rows cols : ℕ)
    (hrows : 2 ≤ rows) (hcols : 2 ≤ cols) :
    remove_linear_trend (planeMap a b c rows cols) =
      .ok (List.replicate rows (List.replicate cols 0)) := by
  have hrow0 : (planeMap a b c rows cols).headD [] =
      (List.range cols).map (fun i : ℕ => a * (i : ℚ) + c) := by
    unfold planeMap gridMk
    rw [headD_range_map _ _ _ (by omega)]
    exact List.map_congr_left (fun x _ => by push_cast; ring)
  have hlen : (planeMap a b c rows cols).length = rows := by
    simp [planeMap, gridMk]
  have hhead : ((planeMap a b c rows cols).headD []).length = cols := by
    rw [hrow0]
    simp
  have hfit1 : polyfit1 ((planeMap a b c rows cols).headD []) = .ok (a, c) := by
    rw [hrow0]
    exact polyfit1_affine a c cols hcols
  have hplane : ∀ y < rows, ∀ x < cols,
      gval (planeMap a b c rows cols) y x = a * (x : ℚ) + b * (y : ℚ) + c :=
    fun y hy x hx => gval_gridMk _ _ _ _ _ hy hx
  unfold remove_linear_trend
  rw [if_neg (by rw [hlen, hhead]; omega)]
  rw [hfit1]
  simp only [Except.bind, hlen, hhead]
  have hcol : (List.range rows).map (fun y =>
      gval (gridMk rows (fun _ => cols)
        (fun y x => gval (planeMap a b c rows cols) y x - polyval1 (a, c) (x : ℚ))) y 0) =
      (List.range rows).map (fun i : ℕ => b * (i : ℚ) + 0) := by
    apply List.map_congr_left
    intro y hy
    have hy' := List.mem_range.mp hy
    rw [gval_gridMk _ _ _ _ _ hy' (by omega), hplane y hy' 0 (by omega)]
    simp only [polyval1]
    push_cast
    ring
  rw [hcol, polyfit1_affine b 0 rows hrows]
  simp only [Except.bind]
  refine congrArg Except.ok ?_
  rw [gridMk_congr _ _ _ (fun _ _ => (0 : ℚ)) (fun y hy x hx => by
    rw [gval_gridMk _ _ _ _ _ hy hx, hplane y hy x hx]
    simp only [polyval1]
    ring)]
  exact gridMk_const rows cols 0

/-- Witness for C9 on the plane `z = x + 2 * y + 3` over a 2 × 2 grid. -/
theorem remove_linear_trend_plane_witness :
    remove_linear_trend (planeMap 1 2 3 2 2) =
      .ok (List.replicate 2 (List.replicate 2 0)) :=
  remove_linear_trend_plane 1 2 3 2 2 (by omega) (by omega)

/-- Counterexample to claim C4 as stated: the linear variant has no local
recovery — on the 1 × 1 map `[[5]]` its first fit is singular and the
error propagates to the caller, while the polynomial variant on the same
input recovers and returns the map. -/
theorem remove_linear_trend_propagates_cx :
    remove_linear_trend [[(5 : ℚ)]] = Except.error () ∧
      remove_polynomial_trend [[(5 : ℚ)]] = [[(5 : ℚ)]] := by
  constructor
  · norm_num [remove_linear_trend, polyfit1, Finset.sum_range_one, Except.bind]
  · norm_num [remove_polynomial_trend, fit_polynomial_trend, polyfit2,
      Finset.sum_range_one, gridMk, gval, List.range_succ]

end MII4
